/-
  Verification of the activity-capture and retention pipeline of
  `golpac-support-app` (src-tauri/src/main.rs) against its specification.

  The Rust source is shallowly embedded below:
  * strings are Lean `String`s (lists of unicode scalar values, as in Rust);
    `str::to_ascii_lowercase` / the ASCII fragment of `str::to_lowercase`
    are embedded charwise (all keyword tables in the source are ASCII);
  * `u64` quantities (sizes, seconds) are `Nat`.  Rust `saturating_sub` and
    `SystemTime::duration_since`-with-`unwrap_or` coincide with truncated
    `Nat` subtraction; `saturating_add`/`saturating_mul` saturate only at
    `2^64`, which is unreachable for file sizes / hour counts, so they are
    embedded as plain `Nat` addition/multiplication;
  * the filesystem is a directory listing: a list of entries, each carrying a
    filename stem, an optional extension (`Path::extension`), a byte size and
    a modification time in seconds;
  * fallible external actions (screen grab, HTTP PUT, subprocess exit) are
    abstracted as explicit outcome parameters fed to the pure control logic.
-/
import Mathlib

namespace Golpac

/-! ## String helpers (embedding of Rust string operations) -/

/-- Embedding of `char::to_ascii_lowercase` (and of the ASCII fragment of
`char::to_lowercase`): Lean core's `Char.toLower` maps `A`–`Z` to `a`–`z`
and leaves every other character unchanged, exactly as Rust does on ASCII. -/
def asciiLowerChar (c : Char) : Char := c.toLower

/-- Charwise lowercasing of a string: embedding of `str::to_ascii_lowercase`
and of `str::to_lowercase` restricted to ASCII (every keyword the source
compares against is ASCII). -/
def asciiLower (s : String) : String := String.mk (s.data.map asciiLowerChar)

/-- Substring occurrence test on character lists: `needle` occurs as a
contiguous run inside the list. -/
def strContainsAux (needle : List Char) : List Char → Bool
  | [] => needle.isEmpty
  | c :: rest => needle.isPrefixOf (c :: rest) || strContainsAux needle rest

/-- Embedding of `str::contains(&str)`: substring (contiguous-subsequence)
test. -/
def strContains (hay needle : String) : Bool := strContainsAux needle.data hay.data

/-! ## Configuration constants (main.rs lines 77–104) -/

def STILL_CAPTURE_INTERVAL_SECS : Nat := 120
def STILL_MAX_TOTAL_BYTES : Nat := 1000000000
def STILL_MAX_RETENTION_HOURS : Nat := 48
def TARGET_DOMAIN_KEYWORDS : List String := ["coretechsolutions.app"]
def TARGET_SAGE_KEYWORDS : List String := ["pvxwin32", "sage 300", "sage300", "accpac"]
def TARGET_BROWSERS : List String := ["chrome", "msedge", "brave", "msedgewebview2"]

/-! ## Context Classifier (main.rs `is_browser_process`, `detect_target_context`) -/

/-- Embedding of `is_browser_process` (main.rs 910–915). -/
def is_browser_process (name : String) : Bool :=
  let lower := asciiLower name
  TARGET_BROWSERS.any (fun b => lower == b || strContains lower b)

/-- Embedding of `detect_target_context` (main.rs 918–952).  The regex
capture `domain_regex.captures(&title_lower).and_then(|c| c.get(1))` is
abstracted as the function argument `domainMatcher : String → Option String`
(it is only consulted inside the tracked-browser branch). -/
def detect_target_context (process title : String)
    (domainMatcher : String → Option String) : Option String :=
  let proc_lower := asciiLower process
  let title_lower := asciiLower title
  if TARGET_SAGE_KEYWORDS.any
      (fun key => strContains proc_lower key || strContains title_lower key) then
    some "sage300"
  else if is_browser_process proc_lower then
    if (match domainMatcher title_lower with
        | some cap => TARGET_DOMAIN_KEYWORDS.any (fun d => strContains cap d)
        | none => false) then
      some "coretechsolutions.app"
    else if TARGET_DOMAIN_KEYWORDS.any (fun d => strContains title_lower d) then
      some "coretechsolutions.app"
    else
      none
  else
    none

/-- The specialized-application ("sage") keyword test performed first by
`detect_target_context`, on the lowercased process name and title. -/
def sageMatches (process title : String) : Bool :=
  TARGET_SAGE_KEYWORDS.any
    (fun key => strContains (asciiLower process) key
             || strContains (asciiLower title) key)

/-- The direct tracked-domain keyword test on the lowercased window title. -/
def titleDomainMatches (title : String) : Bool :=
  TARGET_DOMAIN_KEYWORDS.any (fun d => strContains (asciiLower title) d)

/-! ## Slugification (main.rs `slugify_label`, 892–907) -/

/-- Per-character normalisation in `slugify_label`: ASCII alphanumerics are
lowercased, every other character becomes `_`. -/
def slugChar (c : Char) : Char :=
  if c.isAlphanum then asciiLowerChar c else '_'

/-- `trim_matches('_')`: remove leading and trailing underscores. -/
def trimUnderscores (l : List Char) : List Char :=
  ((l.dropWhile (fun c => c = '_')).reverse.dropWhile (fun c => c = '_')).reverse

/-- The normalised character list of `slugify_label` before the emptiness
fallback. -/
def slugCore (input : String) : List Char :=
  trimUnderscores (input.data.map slugChar)

/-- Embedding of `slugify_label` (main.rs 892–907). -/
def slugify_label (input : String) : String :=
  if (slugCore input).isEmpty then "capture" else String.mk (slugCore input)

/-! ## Directory model -/

/-- One entry of a directory listing: filename stem (`Path::file_stem`),
optional extension (`Path::extension`, without the dot), byte size
(`Metadata::len`) and modification time in seconds (`Metadata::modified`,
relative to an arbitrary epoch). -/
structure FileEntry where
  stem : String
  ext : Option String
  size : Nat
  modified : Nat
deriving DecidableEq, Repr

/-- The lowercased extension, as computed by
`path.extension().map(|e| e.to_ascii_lowercase())`. -/
def canonExt (f : FileEntry) : Option String := f.ext.map asciiLower

/-- Whether the pruner considers the entry at all: extension present and,
once lowercased, equal to `png` or `json` (main.rs 1018–1024). -/
def isStillFile (f : FileEntry) : Bool :=
  match canonExt f with
  | some el => el == "png" || el == "json"
  | none => false

/-! ## Retention Pruner (main.rs `prune_recordings`, 986–1091) -/

/-- The pruner's per-stem artifact group (struct `Group` in
`prune_recordings`): the last `png` and `json` entries seen for the stem,
the saturating sum of member sizes, and the earliest member modification
time. -/
structure Group where
  stem : String
  png : Option FileEntry
  json : Option FileEntry
  size : Nat
  modified : Nat
deriving DecidableEq, Repr

/-- Folding one relevant entry into an existing group: add its size, take
the earlier modification time, and store it in the `png` slot when its
lowercased extension is `png`, otherwise in the `json` slot (main.rs
1039–1047). -/
def applyEntry (g : Group) (f : FileEntry) (el : String) : Group :=
  { g with
    size := g.size + f.size
    modified := if f.modified < g.modified then f.modified else g.modified
    png := if el == "png" then some f else g.png
    json := if el == "png" then g.json else some f }

/-- The group created for a stem first seen at entry `f`
(`Group::new` followed by the update in the loop body). -/
def mkGroup (f : FileEntry) (el : String) : Group :=
  { stem := f.stem
    png := if el == "png" then some f else none
    json := if el == "png" then none else some f
    size := f.size
    modified := f.modified }

/-- `groups.entry(stem).or_insert_with(..)` followed by the update: modify
the (unique) group with this stem in place, or append a fresh one. -/
def updateStem : List Group → FileEntry → String → List Group
  | [], f, el => [mkGroup f el]
  | g :: gs, f, el =>
    if g.stem == f.stem then applyEntry g f el :: gs
    else g :: updateStem gs f el

/-- Processing one directory entry of the grouping loop (main.rs
1016–1048): entries without an extension, or whose lowercased extension is
neither `png` nor `json`, are skipped. -/
def insertEntry (acc : List Group) (f : FileEntry) : List Group :=
  match canonExt f with
  | some el => if el == "png" || el == "json" then updateStem acc f el else acc
  | none => acc

/-- The association list of artifact groups built from a directory listing
(the `groups` map; list order is first-appearance order of each stem). -/
def groupsOf (dir : List FileEntry) : List Group :=
  dir.foldl insertEntry []

/-- The age-pass deletion test (main.rs 1053–1056):
`now.duration_since(modified).map(|age| age > max_age).unwrap_or(false)`.
With truncated `Nat` subtraction, a `modified` in the future gives age `0`,
matching the `unwrap_or(false)` branch. -/
def isExpired (now maxAge : Nat) (g : Group) : Bool :=
  decide (maxAge < now - g.modified)

/-- Sorting key order of the size pass: ascending modification time
(`items.sort_by_key(|(_, g)| g.modified)`). -/
def leMod (a b : Group) : Prop := a.modified ≤ b.modified

instance : DecidableRel leMod := fun a b => Nat.decLe a.modified b.modified

instance : IsTotal Group leMod := ⟨fun a b => Nat.le_total a.modified b.modified⟩

instance : IsTrans Group leMod := ⟨fun _ _ _ h h' => Nat.le_trans h h'⟩

/-- Total byte size of a list of groups
(`groups.values().map(|g| g.size).sum()`). -/
def sumSizes (gs : List Group) : Nat := (gs.map Group.size).sum

/-- The groups deleted by the size pass (main.rs 1075–1091): walk the
age-surviving groups in ascending modification-time order, deleting while
the running total still exceeds the ceiling.  `total - g.size` is Rust's
`total.saturating_sub(grp.size)`. -/
def sizePassRemoved (maxBytes : Nat) : Nat → List Group → List Group
  | _, [] => []
  | total, g :: rest =>
    if total ≤ maxBytes then []
    else g :: sizePassRemoved maxBytes (total - g.size) rest

/-- The groups surviving the size pass. -/
def sizePassKept (maxBytes : Nat) : Nat → List Group → List Group
  | _, [] => []
  | total, g :: rest =>
    if total ≤ maxBytes then g :: rest
    else sizePassKept maxBytes (total - g.size) rest

/-- The groups whose files a call
`prune_recordings(dir, maxBytes, maxAgeHours)` deletes, at time `now`:
first every group past the retention window, then — oldest first — the
age-surviving groups while the remaining total exceeds `maxBytes`.
`maxAgeHours * 3600` is Rust's `max_age_hours.saturating_mul(3600)`
(saturation at `2^64` not modelled). -/
def pruneRemovedGroups (now maxBytes maxAgeHours : Nat)
    (dir : List FileEntry) : List Group :=
  let gs := groupsOf dir
  let maxAge := maxAgeHours * 3600
  let kept := gs.filter (fun g => ! isExpired now maxAge g)
  gs.filter (isExpired now maxAge)
    ++ sizePassRemoved maxBytes (sumSizes kept) (kept.insertionSort leMod)

/-- The files of a group the pruner removes: its stored `png` and `json`
entries (main.rs 1060–1067 and 1082–1087). -/
def groupFiles (g : Group) : List FileEntry := g.png.toList ++ g.json.toList

/-- The individual files deleted by one pruning pass. -/
def pruneRemovedFiles (now maxBytes maxAgeHours : Nat)
    (dir : List FileEntry) : List FileEntry :=
  (pruneRemovedGroups now maxBytes maxAgeHours dir).flatMap groupFiles

/-- Embedding of `prune_recordings` (main.rs 986–1091) as a function on
directory listings: the listing after the pass consists of the entries the
pass did not delete. -/
def prune_recordings (now maxBytes maxAgeHours : Nat)
    (dir : List FileEntry) : List FileEntry :=
  dir.filter (fun f => ! (pruneRemovedFiles now maxBytes maxAgeHours dir).contains f)

/-- A listing is a possible on-disk directory for the pruner: no two
relevant entries (lowercased extension `png`/`json`) share both their stem
and their lowercased extension.  On the target platform (Windows, with a
case-insensitive filesystem) every real directory satisfies this. -/
def WellFormedDir (dir : List FileEntry) : Prop :=
  ((dir.filter isStillFile).map (fun f => (f.stem, canonExt f))).Nodup

instance : DecidablePred WellFormedDir := fun _ =>
  inferInstanceAs (Decidable (List.Nodup _))

/-! ## Still capture (main.rs `capture_and_store_still`, 955–983) -/

/-- A UTC wall-clock instant broken into calendar fields, as formatted by
`Utc::now().format("%Y%m%dT%H%M%S%.3fZ")`. -/
structure UtcTime where
  year : Nat
  month : Nat
  day : Nat
  hour : Nat
  minute : Nat
  second : Nat
  millis : Nat
deriving DecidableEq, Repr

/-- Zero-padding to two digits (`%m`, `%d`, `%H`, `%M`, `%S`). -/
def pad2 (n : Nat) : String := if n < 10 then "0" ++ toString n else toString n

/-- Zero-padding to three digits (`%.3f` prints `.` plus three digits). -/
def pad3 (n : Nat) : String :=
  if n < 10 then "00" ++ toString n
  else if n < 100 then "0" ++ toString n
  else toString n

/-- Zero-padding to four digits (`%Y` for common-era years). -/
def pad4 (n : Nat) : String :=
  if n < 10 then "000" ++ toString n
  else if n < 100 then "00" ++ toString n
  else if n < 1000 then "0" ++ toString n
  else toString n

/-- The timestamp string `format("%Y%m%dT%H%M%S%.3fZ")` of main.rs 964. -/
def format_timestamp (t : UtcTime) : String :=
  pad4 t.year ++ pad2 t.month ++ pad2 t.day ++ "T"
    ++ pad2 t.hour ++ pad2 t.minute ++ pad2 t.second
    ++ "." ++ pad3 t.millis ++ "Z"

/-- The filename stem of a still artifact:
`format!("still_{timestamp}_{slug}.png")` without the extension. -/
def still_stem (t : UtcTime) (reason : String) : String :=
  "still_" ++ format_timestamp t ++ "_" ++ slugify_label reason

/-- The outcome of a successful `capture_and_store_still` call, before the
closing `prune_recordings` invocation is taken into account. -/
structure StillWrite where
  /-- Filename of the written image (`still_<ts>_<slug>.png`). -/
  pngName : String
  /-- Key/value pairs of the JSON sidecar, in construction order. -/
  sidecar : List (String × String)
  /-- Directory listing after both writes. -/
  dirAfterWrites : List FileEntry
  /-- Directory listing after the closing `prune_recordings` call. -/
  dirAfterPrune : List FileEntry

/-- Embedding of the success path of `capture_and_store_still` (main.rs
955–983): write the image, write the sidecar (same stem, `.json`
extension via `with_extension`), then invoke the pruner on the resulting
directory.  The screen grab itself is external; `pngSize`/`jsonSize` are
the byte counts written and `mtime` the write time in seconds. -/
def capture_and_store_still (now maxBytes maxAgeHours : Nat) (t : UtcTime)
    (reason process title : String) (pngSize jsonSize mtime : Nat)
    (dir : List FileEntry) : StillWrite :=
  let stem := still_stem t reason
  let pngPath := stem ++ ".png"
  let meta := [("capturedAt", format_timestamp t),
               ("process", process),
               ("windowTitle", title),
               ("reason", reason),
               ("path", pngPath)]
  let dirW := dir ++ [⟨stem, some "png", pngSize, mtime⟩,
                      ⟨stem, some "json", jsonSize, mtime⟩]
  { pngName := pngPath
    sidecar := meta
    dirAfterWrites := dirW
    dirAfterPrune := prune_recordings now maxBytes maxAgeHours dirW }

/-! ## Upload Publisher (main.rs `start_video_uploader`, 1329–1494) -/

/-- Grace window under which a segment counts as still being written
(main.rs 1444: `modified.elapsed().unwrap_or_default() < 15`). -/
def UPLOAD_GRACE_SECS : Nat := 15

/-- Outcome of attempting one file: the full-file read and, after it, the
HTTP PUT.  `badStatus` is a non-2xx response, `netError` a transport
error, `readFailed` an `fs::read` error. -/
inductive UploadOutcome
  | success
  | badStatus
  | netError
  | readFailed
deriving DecidableEq, Repr

/-- Whether a file is an upload candidate of this polling pass: extension
lowercases to `mp4` (main.rs 1437, missing extension reads as `""`) and
its modification time is outside the grace window.  A future `modified`
gives elapsed `0` (`unwrap_or_default`), i.e. a skip, exactly as truncated
subtraction does. -/
def isUploadCandidate (now : Nat) (f : FileEntry) : Bool :=
  asciiLower (f.ext.getD "") == "mp4" && ! decide (now - f.modified < UPLOAD_GRACE_SECS)

/-- Per-file decision of one pass: `true` iff the local file is deleted.
Mirrors the loop body (main.rs 1435–1491): non-`mp4` entries and entries
inside the grace window are skipped; a failed read or a failed PUT leaves
the file; only a 2xx PUT (`r.status().is_success()`) is followed by
`fs::remove_file`. -/
def uploadDeletes (now : Nat) (outcome : FileEntry → UploadOutcome)
    (f : FileEntry) : Bool :=
  if asciiLower (f.ext.getD "") != "mp4" then false
  else if now - f.modified < UPLOAD_GRACE_SECS then false
  else
    match outcome f with
    | .success => true
    | .badStatus => false
    | .netError => false
    | .readFailed => false

/-- One polling pass of the Upload Publisher over the video directory:
every entry is processed independently and exactly the files whose PUT
succeeded are removed. -/
def uploader_pass (now : Nat) (outcome : FileEntry → UploadOutcome)
    (dir : List FileEntry) : List FileEntry :=
  dir.filter (fun f => ! uploadDeletes now outcome f)

/-- The remote object key of a segment upload:
`format!("recordings/{hostname}/{timestamp}_{file_name}")` (main.rs 1463). -/
def video_upload_key (hostname timestamp fileName : String) : String :=
  "recordings/" ++ hostname ++ "/" ++ timestamp ++ "_" ++ fileName

/-- An HTTP PUT request as assembled by the uploader. -/
structure PutRequest where
  url : String
  authorization : String
  contentType : String
deriving DecidableEq, Repr

/-- `format!("{}/{}", upload_base.trim_end_matches('/'), key)` — dropping
trailing slashes of the base URL. -/
def joinUrl (base key : String) : String :=
  String.mk (((base.data.reverse.dropWhile (fun c => c = '/')).reverse)) ++ "/" ++ key

/-- The authenticated PUT for one video segment (main.rs 1464–1471):
bearer token in the `Authorization` header, content type `video/mp4`. -/
def video_upload_request (uploadBase token hostname timestamp fileName : String) :
    PutRequest :=
  { url := joinUrl uploadBase (video_upload_key hostname timestamp fileName)
    authorization := "Bearer " ++ token
    contentType := "video/mp4" }

/-! ## Video Segment Recorder (main.rs `start_video_recorder`, 1209–1322) -/

/-- Exit of one encoder run: normal exit, failure exit code, or spawn
error (`cmd.status()`'s three outcomes at main.rs 1302–1316). -/
inductive EncoderExit
  | exitedOk
  | exitedErr (code : Option Int)
  | spawnFailed
deriving DecidableEq, Repr

/-- Supervisor state of the Video Segment Recorder: either permanently
disabled (encoder executable not invocable — the loop at main.rs 1272 is
never entered) or running with a count of encoder launches so far. -/
inductive RecorderState
  | disabled
  | running (launches : Nat)
deriving DecidableEq, Repr

/-- Startup (main.rs 1247–1262): probe `ffmpeg -version`; on failure log
and return before the loop, otherwise enter the loop and perform the first
launch. -/
def recorder_init (ffmpegOk : Bool) : RecorderState :=
  if ffmpegOk then .running 1 else .disabled

/-- One supervision step: the encoder subprocess exited (with any status
whatsoever, spawn failure included); the loop sleeps and relaunches
unconditionally (main.rs 1302–1320). -/
def recorder_step : RecorderState → EncoderExit → RecorderState
  | .disabled, _ => .disabled
  | .running n, _ => .running (n + 1)

/-- The delay in seconds between observing an exit and the next launch:
a spawn failure sleeps 5 s (main.rs 1314) before the unconditional 2 s
restart delay (main.rs 1319). -/
def recorder_delay : EncoderExit → Nat
  | .spawnFailed => 5 + 2
  | _ => 2

/-- Supervisor state after a finite trace of encoder exits. -/
def recorder_run (ffmpegOk : Bool) (exits : List EncoderExit) : RecorderState :=
  exits.foldl recorder_step (recorder_init ffmpegOk)

/-- Number of encoder launches a state has performed. -/
def launchCount : RecorderState → Nat
  | .disabled => 0
  | .running n => n

/-! ## Still Capture Scheduler tick (main.rs `start_target_still_monitor`,
1154–1196) -/

/-- Result of one scheduler tick. -/
structure TickResult where
  /-- `last_capture` after the tick (the capture time on success, unchanged
  otherwise). -/
  lastCapture : Nat
  /-- Whether a capture was attempted this tick. -/
  attempted : Bool
  /-- Whether the attempted capture succeeded. -/
  captured : Bool
  /-- Log lines emitted by the failure paths of this tick. -/
  logs : List String
deriving Repr

/-- Whether the capture interval has elapsed
(`last_capture.elapsed() >= Duration::from_secs(STILL_CAPTURE_INTERVAL_SECS)`). -/
def tickDue (now lastCapture : Nat) : Bool :=
  decide (STILL_CAPTURE_INTERVAL_SECS ≤ now - lastCapture)

/-- One tick of the still-monitor loop body (main.rs 1168–1195).
`fg` is the result of `get_foreground_process_with_title()`; on error the
tick logs and substitutes `("unknown", "unknown")`.  `capResult` is the
result `capture_and_store_still` would return for the chosen reason (its
failures — screen grab, encode, or file write — all surface here as
`Except.error`); on error the tick logs and leaves `last_capture`
unchanged, on success `last_capture` advances to `now`.  The function is
total: no failure of either operation escapes the tick. -/
def monitor_tick (now lastCapture : Nat)
    (fg : Except String (String × String))
    (capResult : Except String Unit) : TickResult :=
  let fgLogs := match fg with
    | .ok _ => []
    | .error err => ["foreground lookup failed: " ++ err]
  if tickDue now lastCapture then
    match capResult with
    | .ok _ =>
      { lastCapture := now, attempted := true, captured := true, logs := fgLogs }
    | .error err =>
      { lastCapture := lastCapture, attempted := true, captured := false
        logs := fgLogs ++ ["capture failed: " ++ err] }
  else
    { lastCapture := lastCapture, attempted := false, captured := false
      logs := fgLogs }

/-- The process/title pair the tick classifies and captures with: the
foreground lookup's value, or `("unknown", "unknown")` after a failure
(main.rs 1168–1174). -/
def tickProcTitle (fg : Except String (String × String)) : String × String :=
  match fg with
  | .ok v => v
  | .error _ => ("unknown", "unknown")

/-! ## Character and slug lemmas -/

theorem char_toNat_ofNat_small (n : Nat) (h : n < 0xD800) :
    (Char.ofNat n).toNat = n := by
  have hv : n.isValidChar := Or.inl h
  rw [Char.ofNat, dif_pos hv]
  rfl

/-- On an ASCII alphanumeric character, `slugChar` produces a lowercase
letter or a digit; on anything else it produces `_`. -/
theorem slugChar_ok (c : Char) :
    ('a' ≤ slugChar c ∧ slugChar c ≤ 'z')
      ∨ ('0' ≤ slugChar c ∧ slugChar c ≤ '9')
      ∨ slugChar c = '_' := by
  unfold slugChar asciiLowerChar
  by_cases h : c.isAlphanum
  · rw [if_pos h]
    simp only [Char.isAlphanum, Char.isAlpha, Char.isUpper, Char.isLower,
      Char.isDigit, Bool.or_eq_true, Bool.and_eq_true, decide_eq_true_eq] at h
    rcases h with (h | h) | h
    · -- uppercase letter: toLower adds 32
      have h1 : 65 ≤ c.toNat := h.1
      have h2 : c.toNat ≤ 90 := h.2
      left
      have : (Char.toLower c).toNat = c.toNat + 32 := by
        rw [Char.toLower, if_pos (by exact ⟨h1, h2⟩)]
        exact char_toNat_ofNat_small _ (by omega)
      constructor
      · show 97 ≤ (Char.toLower c).toNat
        omega
      · show (Char.toLower c).toNat ≤ 122
        omega
    · -- lowercase letter: toLower is the identity
      have h1 : 97 ≤ c.toNat := h.1
      have h2 : c.toNat ≤ 122 := h.2
      left
      have : Char.toLower c = c := by
        rw [Char.toLower, if_neg (by omega)]
      rw [this]
      exact ⟨h1, h2⟩
    · -- digit: toLower is the identity
      have h1 : 48 ≤ c.toNat := h.1
      have h2 : c.toNat ≤ 57 := h.2
      right; left
      have : Char.toLower c = c := by
        rw [Char.toLower, if_neg (by omega)]
      rw [this]
      exact ⟨h1, h2⟩
  · rw [if_neg h]
    right; right; rfl

theorem head?_dropWhile_ne (p : Char → Bool) (l : List Char) (a : Char)
    (h : (l.dropWhile p).head? = some a) : p a = false := by
  induction l with
  | nil => simp at h
  | cons c t ih =>
    by_cases hc : p c
    · rw [List.dropWhile_cons_of_pos hc] at h
      exact ih h
    · rw [List.dropWhile_cons_of_neg hc] at h
      simp only [List.head?_cons, Option.some.injEq] at h
      rw [← h]
      exact Bool.of_not_eq_true hc

theorem getLast?_dropWhile_of_ne_nil (p : Char → Bool) (l : List Char)
    (h : l.dropWhile p ≠ []) : (l.dropWhile p).getLast? = l.getLast? := by
  obtain ⟨pre, hpre⟩ := List.dropWhile_suffix (l := l) p
  conv_rhs => rw [← hpre]
  exact (List.getLast?_append_of_ne_nil pre h).symm

/-- Every character of `trimUnderscores l` comes from `l`. -/
theorem mem_trimUnderscores (l : List Char) (c : Char)
    (h : c ∈ trimUnderscores l) : c ∈ l := by
  unfold trimUnderscores at h
  rw [List.mem_reverse] at h
  have h1 := (List.dropWhile_suffix (fun c => decide (c = '_'))).mem h
  rw [List.mem_reverse] at h1
  exact (List.dropWhile_suffix (fun c => decide (c = '_'))).mem h1

theorem trimUnderscores_head? (l : List Char) (h : trimUnderscores l ≠ []) :
    (trimUnderscores l).head? ≠ some '_' := by
  unfold trimUnderscores at *
  set p : Char → Bool := fun c => decide (c = '_') with hp
  set y := l.dropWhile p with hy
  set w := y.reverse.dropWhile p with hw
  intro hcontra
  rw [List.head?_reverse] at hcontra
  have hwne : w ≠ [] := by
    intro hnil
    rw [hnil] at h
    exact h rfl
  rw [getLast?_dropWhile_of_ne_nil p y.reverse hwne, List.getLast?_reverse] at hcontra
  have := head?_dropWhile_ne p l '_' hcontra
  simp [p] at this

theorem trimUnderscores_getLast? (l : List Char) :
    (trimUnderscores l).getLast? ≠ some '_' := by
  unfold trimUnderscores
  set p : Char → Bool := fun c => decide (c = '_') with hp
  rw [List.getLast?_reverse]
  intro hcontra
  have := head?_dropWhile_ne p _ '_' hcontra
  simp [p] at this

/-! ## Claim C5 — slugification is total and safe -/

/-- C5: for every input string the output of `slugify_label` is non-empty,
contains only lowercase ASCII letters, digits and underscores, has no
leading or trailing underscore, and is the placeholder `"capture"` whenever
the normalised character list `slugCore` is empty. -/
theorem slugify_label_total_safe (s : String) :
    (slugify_label s).data ≠ []
      ∧ (∀ c ∈ (slugify_label s).data,
          ('a' ≤ c ∧ c ≤ 'z') ∨ ('0' ≤ c ∧ c ≤ '9') ∨ c = '_')
      ∧ (slugify_label s).data.head? ≠ some '_'
      ∧ (slugify_label s).data.getLast? ≠ some '_'
      ∧ (slugCore s = [] → slugify_label s = "capture") := by
  unfold slugify_label
  by_cases h : (slugCore s).isEmpty
  · rw [if_pos h]
    refine ⟨by decide, ?_, by decide, by decide, fun _ => rfl⟩
    intro c hc
    fin_cases hc <;> simp
  · rw [if_neg h]
    have hne : slugCore s ≠ [] := by
      intro hnil
      rw [hnil] at h
      exact h rfl
    have hdata : (String.mk (slugCore s)).data = slugCore s := rfl
    refine ⟨by rw [hdata]; exact hne, ?_, ?_, ?_, fun hnil => absurd hnil hne⟩
    · intro c hc
      rw [hdata] at hc
      have hmem := mem_trimUnderscores _ _ hc
      rw [List.mem_map] at hmem
      obtain ⟨c', _, hmap⟩ := hmem
      rw [← hmap]
      exact slugChar_ok c'
    · rw [hdata]
      exact trimUnderscores_head? _ hne
    · rw [hdata]
      exact trimUnderscores_getLast? _

/-- Witness for C5 at concrete inputs: a unicode-and-punctuation input and
an input whose normalisation is empty, both obtained by applying the claim
theorem. -/
theorem slugify_label_total_safe_witness :
    slugify_label "!!!" = "capture"
      ∧ (slugify_label "São Paulo?").data ≠ []
      ∧ (slugify_label "São Paulo?").data.head? ≠ some '_' :=
  ⟨(slugify_label_total_safe "!!!").2.2.2.2 (by decide),
   (slugify_label_total_safe "São Paulo?").1,
   (slugify_label_total_safe "São Paulo?").2.2.1⟩

/-! ## Claims C2 and C8 — Context Classifier -/

/-- C2 as written is false on the code: for a process that matches no
specialized-application keyword and is not a tracked browser, a window
title containing a tracked domain keyword directly yields no reason — the
direct-title check of the source lives inside the tracked-browser branch.
Concrete counterexample: `notepad.exe` with a title containing the tracked
domain. -/
theorem detect_nonbrowser_domain_counterexample :
    sageMatches "notepad.exe" "Invoice - app.coretechsolutions.app" = false
      ∧ is_browser_process (asciiLower "notepad.exe") = false
      ∧ titleDomainMatches "Invoice - app.coretechsolutions.app" = true
      ∧ detect_target_context "notepad.exe" "Invoice - app.coretechsolutions.app"
          (fun _ => none) = none := by
  refine ⟨by decide, by decide, by decide, by decide⟩

/-- C2 amended: when the process/title match no specialized-application
keyword and the process is not a tracked browser executable, the classifier
returns no reason, even if the window title contains a tracked domain
keyword directly — the direct-title domain check only runs inside the
tracked-browser branch. -/
theorem detect_nonbrowser_returns_none (p t : String)
    (m : String → Option String)
    (hsage : sageMatches p t = false)
    (hbrowser : is_browser_process (asciiLower p) = false) :
    detect_target_context p t m = none := by
  unfold detect_target_context
  rw [if_neg (by simpa [sageMatches] using hsage), if_neg (by simp [hbrowser])]

/-- Witness for the amended C2: `notepad.exe` with a domain-bearing title
classifies as no reason. -/
theorem detect_nonbrowser_returns_none_witness :
    detect_target_context "notepad.exe" "my coretechsolutions.app page"
      (fun s => some s) = none :=
  detect_nonbrowser_returns_none _ _ _ (by decide) (by decide)

/-- C8: the classifier is deterministic (it is a pure function of its
inputs) and order-respecting: whenever the specialized-application keyword
test succeeds, the result is the specialized-application reason
`"sage300"`, regardless of the tracked-domain evidence (here: a title
containing a tracked domain keyword directly) and regardless of the
domain-extraction function — rule 1 precedes rules 2 and 3. -/
theorem detect_sage_precedes_domain (p t : String)
    (m m' : String → Option String)
    (hsage : sageMatches p t = true)
    (_hdomain : titleDomainMatches t = true) :
    detect_target_context p t m = some "sage300"
      ∧ detect_target_context p t m = detect_target_context p t m' := by
  have h : ∀ mm : String → Option String,
      detect_target_context p t mm = some "sage300" := by
    intro mm
    unfold detect_target_context
    rw [if_pos (by simpa [sageMatches] using hsage)]
  exact ⟨h m, (h m).trans (h m').symm⟩

/-- Witness for C8: a Sage window title that also contains the tracked
domain classifies as the specialized-application reason, with two different
domain matchers. -/
theorem detect_sage_precedes_domain_witness :
    detect_target_context "pvxwin32.exe" "Sage 300 - coretechsolutions.app"
        (fun _ => none) = some "sage300"
      ∧ detect_target_context "pvxwin32.exe" "Sage 300 - coretechsolutions.app"
          (fun _ => none)
        = detect_target_context "pvxwin32.exe" "Sage 300 - coretechsolutions.app"
            (fun s => some s) :=
  detect_sage_precedes_domain _ _ _ _ (by decide) (by decide)

/-! ## Claim C3 — Upload Publisher retry semantics -/

/-- The per-file decision factors as: the file is a candidate (mp4, outside
the grace window) and its PUT succeeded. -/
theorem uploadDeletes_eq (now : Nat) (o : FileEntry → UploadOutcome)
    (f : FileEntry) :
    uploadDeletes now o f = (isUploadCandidate now f && (o f == .success)) := by
  unfold uploadDeletes isUploadCandidate
  by_cases h1 : asciiLower (f.ext.getD "") = "mp4"
  · by_cases h2 : now - f.modified < UPLOAD_GRACE_SECS
    · simp [h1, h2]
    · simp [h1, h2]
      cases o f <;> simp
  · simp [h1]

/-- C3: in one polling pass of the Upload Publisher, (i) a file outside the
candidate set — wrong extension or modified within the grace window — is
left in place; (ii) a candidate file is removed if and only if its
authenticated PUT returned a success status, so any failure (read error,
network error, non-2xx) leaves it in place; (iii) files are processed
independently, so one file's failure never prevents the rest of the pass;
(iv) a file left in place is still a candidate at every later poll; (v) the
upload is an authenticated PUT carrying the bearer token. -/
theorem uploader_pass_retry (now now' : Nat) (o : FileEntry → UploadOutcome)
    (dir dir₂ : List FileEntry) (f : FileEntry)
    (base token host ts name : String) :
    (f ∈ dir → isUploadCandidate now f = false →
      f ∈ uploader_pass now o dir)
      ∧ (f ∈ dir → isUploadCandidate now f = true →
          (f ∉ uploader_pass now o dir ↔ o f = .success))
      ∧ uploader_pass now o (dir ++ dir₂)
          = uploader_pass now o dir ++ uploader_pass now o dir₂
      ∧ (isUploadCandidate now f = true → now ≤ now' →
          isUploadCandidate now' f = true)
      ∧ (video_upload_request base token host ts name).authorization
          = "Bearer " ++ token := by
  refine ⟨?_, ?_, List.filter_append dir dir₂, ?_, rfl⟩
  · intro hf hcand
    rw [uploader_pass, List.mem_filter, uploadDeletes_eq, hcand]
    exact ⟨hf, rfl⟩
  · intro hf hcand
    rw [uploader_pass, List.mem_filter, uploadDeletes_eq, hcand]
    constructor
    · intro hnot
      by_contra hne
      exact hnot ⟨hf, by simp [beq_eq_false_iff_ne.mpr hne]⟩
    · intro hsucc hmem
      rw [hsucc] at hmem
      simp at hmem
  · intro hcand hle
    rw [isUploadCandidate] at hcand ⊢
    simp only [Bool.and_eq_true, Bool.not_eq_eq_eq_not, Bool.not_true,
      decide_eq_false_iff_not, Nat.not_lt] at hcand ⊢
    exact ⟨hcand.1, le_trans hcand.2 (Nat.sub_le_sub_right hle _)⟩

/-- Witness for C3: a fresh segment is skipped, a failing candidate
survives the pass, and the request carries the bearer header. -/
theorem uploader_pass_retry_witness :
    (⟨"video_001", some "mp4", 5, 95⟩ : FileEntry)
        ∈ uploader_pass 100 (fun _ => .netError)
            [⟨"video_001", some "mp4", 5, 95⟩]
      ∧ (video_upload_request "https://blob/" "tok" "host" "ts" "v.mp4").authorization
          = "Bearer " ++ "tok" := by
  have h := uploader_pass_retry 100 100 (fun _ => .netError)
    [⟨"video_001", some "mp4", 5, 95⟩] [] ⟨"video_001", some "mp4", 5, 95⟩
    "https://blob/" "tok" "host" "ts" "v.mp4"
  exact ⟨h.1 (by decide) (by decide), h.2.2.2.2⟩

/-! ## Claim C4 — Video Segment Recorder restart behaviour -/

theorem recorder_run_disabled (exits : List EncoderExit) :
    exits.foldl recorder_step .disabled = .disabled := by
  induction exits with
  | nil => rfl
  | cons e t ih => exact ih

theorem recorder_run_running (exits : List EncoderExit) (n : Nat) :
    exits.foldl recorder_step (.running n) = .running (n + exits.length) := by
  induction exits generalizing n with
  | nil => rfl
  | cons e t ih =>
    rw [List.foldl_cons, recorder_step, ih]
    simp [Nat.add_comm, Nat.add_assoc, Nat.add_left_comm]

/-- C4: if the encoder executable is not invocable the recorder disables
itself for the session — its supervising loop is never entered and no
launch happens, whatever exits would have followed; if it is invocable,
then after any finite trace of `N` subprocess exits — normal exit, failure
exit code, or spawn error alike — the supervisor is still running and has
performed `N + 1` launches, having waited the fixed short delay after each
exit. -/
theorem video_recorder_restart (exits : List EncoderExit) :
    (recorder_run false exits = .disabled
        ∧ launchCount (recorder_run false exits) = 0)
      ∧ recorder_run true exits = .running (exits.length + 1)
      ∧ launchCount (recorder_run true exits) = exits.length + 1
      ∧ (∀ c, recorder_delay (.exitedErr c) = 2)
      ∧ recorder_delay .exitedOk = 2 := by
  have hd : recorder_run false exits = .disabled := recorder_run_disabled exits
  have hr : recorder_run true exits = .running (exits.length + 1) := by
    rw [recorder_run, recorder_init, if_pos rfl, recorder_run_running,
      Nat.add_comm]
  exact ⟨⟨hd, by rw [hd]; rfl⟩, hr, by rw [hr]; rfl, fun _ => rfl, rfl⟩

/-! ## Claim C9 — Still Capture Scheduler failure semantics -/

/-- C9: within one tick of the still-capture loop, a foreground-lookup
failure is absorbed by substituting `("unknown", "unknown")` and changes
nothing else about the tick; a capture failure (screen grab, encode or
file write) is logged and only skips that tick — `last_capture` is left
unchanged, so the tick that was due stays due at every later poll and is
retried; a successful capture advances `last_capture`.  The tick is a
total function of its inputs: no such failure can abort the loop. -/
theorem monitor_tick_failure_semantics (now now' lastCapture : Nat)
    (e : String) (fg : Except String (String × String))
    (capResult : Except String Unit) :
    ((monitor_tick now lastCapture (.error e) capResult).lastCapture
        = (monitor_tick now lastCapture (.ok ("unknown", "unknown")) capResult).lastCapture
      ∧ (monitor_tick now lastCapture (.error e) capResult).attempted
          = (monitor_tick now lastCapture (.ok ("unknown", "unknown")) capResult).attempted
      ∧ tickProcTitle (.error e) = ("unknown", "unknown"))
      ∧ (tickDue now lastCapture = true →
          (monitor_tick now lastCapture fg (.error e)).lastCapture = lastCapture
            ∧ (monitor_tick now lastCapture fg (.error e)).logs ≠ [])
      ∧ (tickDue now lastCapture = false →
          (monitor_tick now lastCapture fg capResult).attempted = false
            ∧ (monitor_tick now lastCapture fg capResult).lastCapture = lastCapture)
      ∧ (tickDue now lastCapture = true → now ≤ now' →
          tickDue now' lastCapture = true)
      ∧ (tickDue now lastCapture = true →
          (monitor_tick now lastCapture fg (.ok ())).lastCapture = now) := by
  refine ⟨?_, ?_, ?_, ?_, ?_⟩
  · unfold monitor_tick
    by_cases hdue : tickDue now lastCapture <;>
      cases capResult <;> simp [hdue, tickProcTitle]
  · intro hdue
    unfold monitor_tick
    cases fg <;> simp [hdue]
  · intro hdue
    unfold monitor_tick
    cases capResult <;> simp [hdue]
  · intro hdue hle
    rw [tickDue, decide_eq_true_eq] at hdue ⊢
    omega
  · intro hdue
    unfold monitor_tick
    cases fg <;> simp [hdue]

/-- Witness for C9: a due tick whose capture fails keeps `last_capture`,
and stays due at the next poll. -/
theorem monitor_tick_failure_semantics_witness :
    ((monitor_tick 500 0 (.ok ("chrome.exe", "t")) (.error "disk full")).lastCapture = 0
        ∧ (monitor_tick 500 0 (.ok ("chrome.exe", "t")) (.error "disk full")).logs ≠ [])
      ∧ tickDue 502 0 = true := by
  have h := monitor_tick_failure_semantics 500 502 0 "disk full"
    (.ok ("chrome.exe", "t")) (.error "disk full")
  exact ⟨h.2.1 (by decide), h.2.2.2.1 (by decide) (by omega)⟩

/-! ## Claim C7 — still artifact write layout -/

/-- C7: a successful `capture_and_store_still` writes the image under the
name `still_<timestamp>_<slugified reason>.png` (timestamp
`yyyyMMddTHHmmss.SSSZ`), writes a sibling `.json` sidecar holding exactly
the fields `capturedAt`, `process`, `windowTitle`, `reason` and `path`
with the capture data, and only then invokes the Retention Pruner on the
directory that already contains both new files — the image and its sidecar
share one filename stem, so the prune pass observes the just-written
artifact as a single group. -/
theorem capture_and_store_still_spec (now maxBytes maxAgeHours : Nat)
    (t : UtcTime) (reason process title : String)
    (pngSize jsonSize mtime : Nat) (dir : List FileEntry) :
    (capture_and_store_still now maxBytes maxAgeHours t reason process title
        pngSize jsonSize mtime dir).pngName
      = "still_" ++ format_timestamp t ++ "_" ++ slugify_label reason ++ ".png"
      ∧ (capture_and_store_still now maxBytes maxAgeHours t reason process title
          pngSize jsonSize mtime dir).sidecar
        = [("capturedAt", format_timestamp t), ("process", process),
           ("windowTitle", title), ("reason", reason),
           ("path", still_stem t reason ++ ".png")]
      ∧ (capture_and_store_still now maxBytes maxAgeHours t reason process title
          pngSize jsonSize mtime dir).dirAfterWrites
        = dir ++ [⟨still_stem t reason, some "png", pngSize, mtime⟩,
                  ⟨still_stem t reason, some "json", jsonSize, mtime⟩]
      ∧ (capture_and_store_still now maxBytes maxAgeHours t reason process title
          pngSize jsonSize mtime dir).dirAfterPrune
        = prune_recordings now maxBytes maxAgeHours
            (dir ++ [⟨still_stem t reason, some "png", pngSize, mtime⟩,
                     ⟨still_stem t reason, some "json", jsonSize, mtime⟩])
      ∧ groupsOf [⟨still_stem t reason, some "png", pngSize, mtime⟩,
                  ⟨still_stem t reason, some "json", jsonSize, mtime⟩]
        = [{ stem := still_stem t reason
             png := some ⟨still_stem t reason, some "png", pngSize, mtime⟩
             json := some ⟨still_stem t reason, some "json", jsonSize, mtime⟩
             size := pngSize + jsonSize
             modified := mtime }] := by
  refine ⟨rfl, rfl, rfl, rfl, ?_⟩
  simp [groupsOf, insertEntry, canonExt, updateStem, applyEntry, mkGroup,
    asciiLower, asciiLowerChar]

/-! ## Grouping-fold lemmas for the Retention Pruner -/

theorem isStillFile_iff (f : FileEntry) :
    isStillFile f = true
      ↔ ∃ el, canonExt f = some el ∧ (el == "png" || el == "json") = true := by
  unfold isStillFile
  cases hc : canonExt f with
  | none => simp
  | some el => simp [hc]

theorem insertEntry_irrel (acc : List Group) (f : FileEntry)
    (h : isStillFile f = false) : insertEntry acc f = acc := by
  cases hc : canonExt f with
  | none => simp [insertEntry, hc]
  | some el =>
    simp only [isStillFile, hc] at h
    simp [insertEntry, hc, h]

/-- The grouping fold ignores entries that are not still artifacts. -/
theorem foldl_insertEntry_filter_still (dir : List FileEntry) :
    ∀ acc, (dir.filter isStillFile).foldl insertEntry acc
      = dir.foldl insertEntry acc := by
  induction dir with
  | nil => intro acc; rfl
  | cons f t ih =>
    intro acc
    by_cases h : isStillFile f
    · rw [List.filter_cons_of_pos h, List.foldl_cons, List.foldl_cons, ih]
    · rw [List.filter_cons_of_neg (by simpa using h), List.foldl_cons,
        insertEntry_irrel acc f (by simpa using h), ih]

theorem groupsOf_filter_still (dir : List FileEntry) :
    groupsOf (dir.filter isStillFile) = groupsOf dir :=
  foldl_insertEntry_filter_still dir []

@[simp] theorem applyEntry_stem (g : Group) (f : FileEntry) (el : String) :
    (applyEntry g f el).stem = g.stem := rfl

@[simp] theorem mkGroup_stem (f : FileEntry) (el : String) :
    (mkGroup f el).stem = f.stem := rfl

theorem stems_updateStem (acc : List Group) (f : FileEntry) (el : String) :
    (updateStem acc f el).map Group.stem
      = if f.stem ∈ acc.map Group.stem then acc.map Group.stem
        else acc.map Group.stem ++ [f.stem] := by
  induction acc with
  | nil => simp [updateStem]
  | cons g gs ih =>
    by_cases h : g.stem = f.stem
    · simp [updateStem, h]
    · rw [updateStem, if_neg (by simp [h])]
      simp only [List.map_cons, ih]
      by_cases hmem : f.stem ∈ gs.map Group.stem
      · rw [if_pos hmem, if_pos (by simp [hmem])]
      · rw [if_neg hmem,
          if_neg (by
            simp only [List.mem_cons, hmem, or_false]
            exact fun a => h a.symm),
          List.cons_append]

theorem nodup_stems_insertEntry (acc : List Group) (f : FileEntry)
    (h : (acc.map Group.stem).Nodup) :
    ((insertEntry acc f).map Group.stem).Nodup := by
  cases hc : canonExt f with
  | none => simpa [insertEntry, hc] using h
  | some el =>
    simp only [insertEntry, hc]
    by_cases hrel : (el == "png" || el == "json") = true
    · rw [if_pos hrel, stems_updateStem]
      by_cases hmem : f.stem ∈ acc.map Group.stem
      · rw [if_pos hmem]; exact h
      · rw [if_neg hmem]
        simp [List.nodup_append, h, hmem, List.disjoint_left]
    · rw [if_neg hrel]; exact h

theorem nodup_stems_foldl (dir : List FileEntry) :
    ∀ acc : List Group, (acc.map Group.stem).Nodup →
      ((dir.foldl insertEntry acc).map Group.stem).Nodup := by
  induction dir with
  | nil => intro acc h; exact h
  | cons f t ih =>
    intro acc h
    exact ih (insertEntry acc f) (nodup_stems_insertEntry acc f h)

/-- Stems of the artifact-group list are pairwise distinct: each stem owns
exactly one group. -/
theorem nodup_stems_groupsOf (dir : List FileEntry) :
    ((groupsOf dir).map Group.stem).Nodup :=
  nodup_stems_foldl dir [] (by simp)

/-! Commuting the grouping fold with a filter on stems: groups of the
entries whose stem satisfies `p` are exactly the groups whose stem
satisfies `p`, unchanged, in order. -/

theorem filter_updateStem_pos (p : String → Bool) (acc : List Group)
    (f : FileEntry) (el : String) (hp : p f.stem = true) :
    (updateStem acc f el).filter (fun g => p g.stem)
      = updateStem (acc.filter (fun g => p g.stem)) f el := by
  induction acc with
  | nil => simp [updateStem, hp]
  | cons g gs ih =>
    by_cases hg : g.stem = f.stem
    · rw [updateStem, if_pos (by simp [hg])]
      rw [List.filter_cons_of_pos (by simp [hg, hp]),
        List.filter_cons_of_pos (by simp [hg, hp]),
        updateStem, if_pos (by simp [hg])]
    · rw [updateStem, if_neg (by simp [hg])]
      by_cases hpg : p g.stem = true
      · rw [List.filter_cons_of_pos (by simpa using hpg),
          List.filter_cons_of_pos (by simpa using hpg), ih,
          updateStem, if_neg (by simp [hg])]
      · rw [List.filter_cons_of_neg (by simpa using hpg),
          List.filter_cons_of_neg (by simpa using hpg), ih]

theorem filter_updateStem_neg (p : String → Bool) (acc : List Group)
    (f : FileEntry) (el : String) (hp : p f.stem = false) :
    (updateStem acc f el).filter (fun g => p g.stem)
      = acc.filter (fun g => p g.stem) := by
  induction acc with
  | nil => simp [updateStem, hp]
  | cons g gs ih =>
    by_cases hg : g.stem = f.stem
    · rw [updateStem, if_pos (by simp [hg]),
        List.filter_cons_of_neg (by simp [hg, hp]),
        List.filter_cons_of_neg (by simp [hg, hp])]
    · rw [updateStem, if_neg (by simp [hg])]
      by_cases hpg : p g.stem = true
      · rw [List.filter_cons_of_pos (by simpa using hpg),
          List.filter_cons_of_pos (by simpa using hpg), ih]
      · rw [List.filter_cons_of_neg (by simpa using hpg),
          List.filter_cons_of_neg (by simpa using hpg), ih]

theorem filter_insertEntry (p : String → Bool) (acc : List Group)
    (f : FileEntry) :
    (insertEntry acc f).filter (fun g => p g.stem)
      = if p f.stem then insertEntry (acc.filter (fun g => p g.stem)) f
        else acc.filter (fun g => p g.stem) := by
  cases hc : canonExt f with
  | none => simp only [insertEntry, hc]; split <;> rfl
  | some el =>
    simp only [insertEntry, hc]
    by_cases hrel : (el == "png" || el == "json") = true
    · rw [if_pos hrel]
      by_cases hp : p f.stem = true
      · rw [if_pos hp, filter_updateStem_pos p acc f el hp, if_pos hrel]
      · rw [if_neg (by simpa using hp),
          filter_updateStem_neg p acc f el (by simpa using hp)]
    · rw [if_neg hrel]; split <;> rfl

theorem filter_foldl_insertEntry (p : String → Bool) (dir : List FileEntry) :
    ∀ acc, (dir.foldl insertEntry acc).filter (fun g => p g.stem)
      = (dir.filter (fun f => p f.stem)).foldl insertEntry
          (acc.filter (fun g => p g.stem)) := by
  induction dir with
  | nil => intro acc; rfl
  | cons f t ih =>
    intro acc
    rw [List.foldl_cons, ih]
    by_cases hp : p f.stem = true
    · rw [List.filter_cons_of_pos (p := fun f => p f.stem) (a := f) hp,
        List.foldl_cons, filter_insertEntry, if_pos hp]
    · rw [List.filter_cons_of_neg (p := fun f => p f.stem) (a := f)
          (by simpa using hp),
        filter_insertEntry, if_neg (by simpa using hp)]

/-- Groups of the sub-listing with stems satisfying `p` are the `p`-stemmed
groups of the full listing. -/
theorem groupsOf_filter_stem (p : String → Bool) (dir : List FileEntry) :
    groupsOf (dir.filter (fun f => p f.stem))
      = (groupsOf dir).filter (fun g => p g.stem) :=
  (filter_foldl_insertEntry p dir []).symm

/-! Slot invariant: every entry stored in a group's `png`/`json` slot is an
entry of the processed listing, carries the group's stem, and its
lowercased extension names its slot. -/

/-- Both slots of `g` hold only entries satisfying `P`, with matching stem
and the slot's extension. -/
def GoodSlots (P : FileEntry → Prop) (g : Group) : Prop :=
  (∀ e, g.png = some e → P e ∧ e.stem = g.stem ∧ canonExt e = some "png")
    ∧ (∀ e, g.json = some e → P e ∧ e.stem = g.stem ∧ canonExt e = some "json")

theorem mem_updateStem {g : Group} (acc : List Group) (f : FileEntry)
    (el : String) (h : g ∈ updateStem acc f el) :
    g ∈ acc
      ∨ (∃ g₀ ∈ acc, g₀.stem = f.stem ∧ g = applyEntry g₀ f el)
      ∨ g = mkGroup f el := by
  induction acc with
  | nil =>
    simp only [updateStem, List.mem_singleton] at h
    exact Or.inr (Or.inr h)
  | cons g₁ gs ih =>
    by_cases h₁ : g₁.stem = f.stem
    · rw [updateStem, if_pos (by simp [h₁])] at h
      rcases List.mem_cons.mp h with h | h
      · exact Or.inr (Or.inl ⟨g₁, List.mem_cons_self g₁ gs, h₁, h⟩)
      · exact Or.inl (List.mem_cons_of_mem g₁ h)
    · rw [updateStem, if_neg (by simp [h₁])] at h
      rcases List.mem_cons.mp h with h | h
      · exact Or.inl (h ▸ List.mem_cons_self g₁ gs)
      · rcases ih h with h | ⟨g₀, hg₀, hs, he⟩ | h
        · exact Or.inl (List.mem_cons_of_mem g₁ h)
        · exact Or.inr (Or.inl ⟨g₀, List.mem_cons_of_mem g₁ hg₀, hs, he⟩)
        · exact Or.inr (Or.inr h)

theorem goodSlots_applyEntry {P : FileEntry → Prop} {g : Group}
    {f : FileEntry} {el : String} (hg : GoodSlots P g) (hP : P f)
    (hstem : g.stem = f.stem) (hext : canonExt f = some el)
    (hel : (el == "png" || el == "json") = true) :
    GoodSlots P (applyEntry g f el) := by
  obtain ⟨hgp, hgj⟩ := hg
  constructor
  · intro e he
    simp only [applyEntry] at he
    by_cases hp : el = "png"
    · rw [if_pos (by simp [hp])] at he
      cases he
      exact ⟨hP, hstem.symm, hp ▸ hext⟩
    · rw [if_neg (by simp [hp])] at he
      exact hgp e he
  · intro e he
    simp only [applyEntry] at he
    by_cases hp : el = "png"
    · rw [if_pos (by simp [hp])] at he
      exact hgj e he
    · rw [if_neg (by simp [hp])] at he
      cases he
      have hj : el = "json" := by
        rcases Bool.or_eq_true_iff.mp hel with h | h
        · exact absurd (by simpa using h) hp
        · simpa using h
      exact ⟨hP, hstem.symm, hj ▸ hext⟩

theorem goodSlots_mkGroup {P : FileEntry → Prop} {f : FileEntry}
    {el : String} (hP : P f) (hext : canonExt f = some el)
    (hel : (el == "png" || el == "json") = true) :
    GoodSlots P (mkGroup f el) := by
  constructor
  · intro e he
    simp only [mkGroup] at he
    by_cases hp : el = "png"
    · rw [if_pos (by simp [hp])] at he
      cases he
      exact ⟨hP, rfl, hp ▸ hext⟩
    · rw [if_neg (by simp [hp])] at he
      cases he
  · intro e he
    simp only [mkGroup] at he
    by_cases hp : el = "png"
    · rw [if_pos (by simp [hp])] at he
      cases he
    · rw [if_neg (by simp [hp])] at he
      cases he
      have hj : el = "json" := by
        rcases Bool.or_eq_true_iff.mp hel with h | h
        · exact absurd (by simpa using h) hp
        · simpa using h
      exact ⟨hP, rfl, hj ▸ hext⟩

theorem goodSlots_insertEntry {P : FileEntry → Prop} (acc : List Group)
    (f : FileEntry) (hacc : ∀ g ∈ acc, GoodSlots P g) (hP : P f) :
    ∀ g ∈ insertEntry acc f, GoodSlots P g := by
  intro g hg
  cases hc : canonExt f with
  | none =>
    rw [insertEntry_irrel acc f (by simp [isStillFile, hc])] at hg
    exact hacc g hg
  | some el =>
    by_cases hrel : (el == "png" || el == "json") = true
    · simp only [insertEntry, hc, if_pos hrel] at hg
      rcases mem_updateStem acc f el hg with h | ⟨g₀, hg₀, hs, he⟩ | h
      · exact hacc g h
      · exact he ▸ goodSlots_applyEntry (hacc g₀ hg₀) hP hs hc hrel
      · exact h ▸ goodSlots_mkGroup hP hc hrel
    · rw [insertEntry_irrel acc f (by simp [isStillFile, hc, hrel])] at hg
      exact hacc g hg

theorem goodSlots_foldl {P : FileEntry → Prop} (dir : List FileEntry) :
    ∀ acc, (∀ g ∈ acc, GoodSlots P g) → (∀ f ∈ dir, P f) →
      ∀ g ∈ dir.foldl insertEntry acc, GoodSlots P g := by
  induction dir with
  | nil => intro acc hacc _ g hg; exact hacc g hg
  | cons f t ih =>
    intro acc hacc hdir g hg
    exact ih (insertEntry acc f)
      (goodSlots_insertEntry acc f hacc (hdir f (List.mem_cons_self f t)))
      (fun f' hf' => hdir f' (List.mem_cons_of_mem f hf')) g hg

/-- Every group of a listing has good slots, with slot entries drawn from
the listing. -/
theorem goodSlots_groupsOf (dir : List FileEntry) :
    ∀ g ∈ groupsOf dir, GoodSlots (· ∈ dir) g :=
  goodSlots_foldl dir [] (by simp) (fun _ hf => hf)

/-! Occupancy invariant: once a relevant entry has been folded in, the
group owning its stem keeps the matching slot occupied. -/

/-- The slot named by extension `el` is occupied in `g`. -/
def slotFilled (el : String) (g : Group) : Bool :=
  if el == "png" then g.png.isSome else g.json.isSome

/-- Some group of `gs` has stem `s` with the `el` slot occupied. -/
def Occ (s el : String) (gs : List Group) : Prop :=
  ∃ g ∈ gs, g.stem = s ∧ slotFilled el g = true

theorem slotFilled_applyEntry (g : Group) (f : FileEntry) (el el' : String)
    (h : slotFilled el g = true) : slotFilled el (applyEntry g f el') = true := by
  unfold slotFilled at *
  by_cases hp : el == "png"
  · rw [if_pos hp] at h ⊢
    simp only [applyEntry]
    split <;> simp_all
  · rw [if_neg hp] at h ⊢
    simp only [applyEntry]
    split <;> simp_all

theorem occ_updateStem (s el : String) (acc : List Group) (f : FileEntry)
    (el' : String) (h : Occ s el acc) : Occ s el (updateStem acc f el') := by
  obtain ⟨g, hg, hs, hfill⟩ := h
  induction acc with
  | nil => cases hg
  | cons g₁ gs ih =>
    by_cases h₁ : g₁.stem = f.stem
    · rw [updateStem, if_pos (by simp [h₁])]
      rcases List.mem_cons.mp hg with h | h
      · exact ⟨applyEntry g₁ f el', List.mem_cons_self _ _,
          by rw [applyEntry_stem, ← h, hs],
          slotFilled_applyEntry g₁ f el el' (h ▸ hfill)⟩
      · exact ⟨g, List.mem_cons_of_mem _ h, hs, hfill⟩
    · rw [updateStem, if_neg (by simp [h₁])]
      rcases List.mem_cons.mp hg with h | h
      · exact ⟨g₁, List.mem_cons_self _ _, h ▸ hs, h ▸ hfill⟩
      · obtain ⟨g', hg', hs', hfill'⟩ := ih h
        exact ⟨g', List.mem_cons_of_mem _ hg', hs', hfill'⟩

theorem occ_insertEntry (s el : String) (acc : List Group) (f : FileEntry)
    (h : Occ s el acc) : Occ s el (insertEntry acc f) := by
  cases hc : canonExt f with
  | none => rw [insertEntry_irrel acc f (by simp [isStillFile, hc])]; exact h
  | some el' =>
    by_cases hrel : (el' == "png" || el' == "json") = true
    · simp only [insertEntry, hc, if_pos hrel]
      exact occ_updateStem s el acc f el' h
    · rw [insertEntry_irrel acc f (by simp [isStillFile, hc, hrel])]; exact h

theorem occ_insertEntry_self (acc : List Group) (f : FileEntry) (el : String)
    (hext : canonExt f = some el)
    (hrel : (el == "png" || el == "json") = true) :
    Occ f.stem el (insertEntry acc f) := by
  simp only [insertEntry, hext, if_pos hrel]
  induction acc with
  | nil =>
    refine ⟨mkGroup f el, by simp [updateStem], rfl, ?_⟩
    unfold slotFilled mkGroup
    by_cases hp : el == "png" <;> simp [hp]
  | cons g₁ gs ih =>
    by_cases h₁ : g₁.stem = f.stem
    · rw [updateStem, if_pos (by simp [h₁])]
      refine ⟨applyEntry g₁ f el, List.mem_cons_self _ _, by simp [h₁], ?_⟩
      unfold slotFilled applyEntry
      by_cases hp : el == "png" <;> simp [hp]
    · rw [updateStem, if_neg (by simp [h₁])]
      obtain ⟨g', hg', hs', hfill'⟩ := ih
      exact ⟨g', List.mem_cons_of_mem _ hg', hs', hfill'⟩

theorem occ_foldl_preserve (dir : List FileEntry) (s el : String) :
    ∀ acc, Occ s el acc → Occ s el (dir.foldl insertEntry acc) := by
  induction dir with
  | nil => intro acc h; exact h
  | cons f t ih =>
    intro acc h
    exact ih (insertEntry acc f) (occ_insertEntry s el acc f h)

/-- Every relevant listing entry leaves its stem's group with the matching
slot occupied in the final grouping. -/
theorem occ_groupsOf (dir : List FileEntry) (f : FileEntry) (el : String)
    (hf : f ∈ dir) (hext : canonExt f = some el)
    (hrel : (el == "png" || el == "json") = true) :
    Occ f.stem el (groupsOf dir) := by
  unfold groupsOf
  obtain ⟨l₁, l₂, rfl⟩ := List.append_of_mem hf
  rw [List.foldl_append, List.foldl_cons]
  exact occ_foldl_preserve l₂ f.stem el _
    (occ_insertEntry_self (l₁.foldl insertEntry []) f el hext hrel)

/-! Size-pass lemmas -/

theorem sizePass_append (maxBytes : Nat) :
    ∀ (l : List Group) (total : Nat),
      sizePassRemoved maxBytes total l ++ sizePassKept maxBytes total l = l := by
  intro l
  induction l with
  | nil => intro total; rfl
  | cons g rest ih =>
    intro total
    by_cases h : total ≤ maxBytes
    · rw [sizePassRemoved, sizePassKept, if_pos h, if_pos h, List.nil_append]
    · rw [sizePassRemoved, sizePassKept, if_neg h, if_neg h, List.cons_append,
        ih]

theorem sizePassRemoved_subset (maxBytes : Nat) :
    ∀ (l : List Group) (total : Nat) (g : Group),
      g ∈ sizePassRemoved maxBytes total l → g ∈ l := by
  intro l
  induction l with
  | nil => intro total g h; cases h
  | cons g₁ rest ih =>
    intro total g h
    rw [sizePassRemoved] at h
    by_cases ht : total ≤ maxBytes
    · rw [if_pos ht] at h; cases h
    · rw [if_neg ht] at h
      rcases List.mem_cons.mp h with h | h
      · exact h ▸ List.mem_cons_self _ _
      · exact List.mem_cons_of_mem _ (ih _ g h)

theorem sizePassRemoved_eq_nil (maxBytes total : Nat) (l : List Group)
    (h : total ≤ maxBytes) : sizePassRemoved maxBytes total l = [] := by
  cases l with
  | nil => rfl
  | cons g rest => rw [sizePassRemoved, if_pos h]

theorem sumSizes_cons (g : Group) (l : List Group) :
    sumSizes (g :: l) = g.size + sumSizes l := by
  simp [sumSizes]

/-- After the size pass, the kept total is at or below the ceiling. -/
theorem sumSizes_sizePassKept (maxBytes : Nat) :
    ∀ (l : List Group) (total : Nat), total = sumSizes l →
      sumSizes (sizePassKept maxBytes total l) ≤ maxBytes := by
  intro l
  induction l with
  | nil =>
    intro total _
    simp [sizePassKept, sumSizes]
  | cons g rest ih =>
    intro total htot
    by_cases h : total ≤ maxBytes
    · rw [sizePassKept, if_pos h, ← htot]
      exact h
    · rw [sizePassKept, if_neg h]
      refine ih _ ?_
      rw [htot, sumSizes_cons]
      omega

/-! The kept groups of one pruning pass, and the characterisation of the
listing the pass leaves behind. -/

/-- The artifact groups a pruning pass leaves in the directory, in
ascending modification-time order. -/
def pruneKeptGroups (now maxBytes maxAgeHours : Nat)
    (dir : List FileEntry) : List Group :=
  let gs := groupsOf dir
  let maxAge := maxAgeHours * 3600
  let kept := gs.filter (fun g => ! isExpired now maxAge g)
  sizePassKept maxBytes (sumSizes kept) (kept.insertionSort leMod)

theorem removedGroups_subset (now maxBytes maxAgeHours : Nat)
    (dir : List FileEntry) (g : Group)
    (hg : g ∈ pruneRemovedGroups now maxBytes maxAgeHours dir) :
    g ∈ groupsOf dir := by
  rcases List.mem_append.mp hg with h | h
  · exact List.mem_of_mem_filter h
  · exact List.mem_of_mem_filter
      ((List.mem_insertionSort leMod).mp (sizePassRemoved_subset _ _ _ g h))

/-- Every file the pruner deletes is a still artifact (extension `png` or
`json` after lowercasing) and its stem is the stem of a removed group. -/
theorem removedFiles_spec (now maxBytes maxAgeHours : Nat)
    (dir : List FileEntry) (f : FileEntry)
    (hf : f ∈ pruneRemovedFiles now maxBytes maxAgeHours dir) :
    isStillFile f = true ∧ f ∈ dir
      ∧ f.stem ∈ (pruneRemovedGroups now maxBytes maxAgeHours dir).map Group.stem := by
  obtain ⟨g, hg, hfg⟩ := List.mem_flatMap.mp hf
  have hgood : GoodSlots (· ∈ dir) g :=
    goodSlots_groupsOf dir g (removedGroups_subset now maxBytes maxAgeHours dir g hg)
  have : (f ∈ dir) ∧ f.stem = g.stem ∧ (canonExt f = some "png" ∨ canonExt f = some "json") := by
    rcases List.mem_append.mp hfg with h | h
    · cases hpng : g.png with
      | none => rw [hpng] at h; cases h
      | some e =>
        rw [hpng] at h
        rcases List.mem_singleton.mp (by simpa using h) with rfl
        obtain ⟨h1, h2, h3⟩ := hgood.1 f hpng
        exact ⟨h1, h2, Or.inl h3⟩
    · cases hjson : g.json with
      | none => rw [hjson] at h; cases h
      | some e =>
        rw [hjson] at h
        rcases List.mem_singleton.mp (by simpa using h) with rfl
        obtain ⟨h1, h2, h3⟩ := hgood.2 f hjson
        exact ⟨h1, h2, Or.inr h3⟩
  obtain ⟨h1, h2, h3⟩ := this
  refine ⟨?_, h1, h2 ▸ List.mem_map_of_mem Group.stem hg⟩
  rcases h3 with h3 | h3 <;> simp [isStillFile, h3]

/-- Under well-formedness, a relevant listing entry whose stem belongs to a
removed group is itself deleted by the pass. -/
theorem wf_removed_of_stem (now maxBytes maxAgeHours : Nat)
    (dir : List FileEntry) (hwf : WellFormedDir dir) (f : FileEntry)
    (hf : f ∈ dir) (hrel : isStillFile f = true)
    (hstem : f.stem ∈ (pruneRemovedGroups now maxBytes maxAgeHours dir).map Group.stem) :
    f ∈ pruneRemovedFiles now maxBytes maxAgeHours dir := by
  obtain ⟨el, hext, hrelel⟩ := (isStillFile_iff f).mp hrel
  obtain ⟨d, hd, hds⟩ := List.mem_map.mp hstem
  obtain ⟨g, hgmem, hgstem, hfilled⟩ := occ_groupsOf dir f el hf hext hrelel
  -- the removed group `d` and the occupied group `g` share the stem, so
  -- they are the same group
  have hdg : d = g :=
    List.inj_on_of_nodup_map (nodup_stems_groupsOf dir)
      (removedGroups_subset now maxBytes maxAgeHours dir d hd) hgmem
      (by rw [hds, ← hgstem])
  have hgood : GoodSlots (· ∈ dir) g := goodSlots_groupsOf dir g hgmem
  -- identify the slot occupant with `f` via well-formedness
  have hslot : (if el == "png" then g.png else g.json) = some f := by
    by_cases hp : el == "png"
    · rw [if_pos hp]
      unfold slotFilled at hfilled
      rw [if_pos hp] at hfilled
      obtain ⟨e, he⟩ := Option.isSome_iff_exists.mp hfilled
      obtain ⟨he1, he2, he3⟩ := hgood.1 e he
      have hef : e = f := by
        refine List.inj_on_of_nodup_map hwf ?_ ?_ ?_
        · exact List.mem_filter.mpr ⟨he1, (isStillFile_iff e).mpr
            ⟨"png", he3, by decide⟩⟩
        · exact List.mem_filter.mpr ⟨hf, hrel⟩
        · have hpel : el = "png" := by simpa using hp
          simp only [Prod.mk.injEq]
          exact ⟨by rw [he2, hgstem], by rw [he3, hext, hpel]⟩
      rw [he, hef]
    · rw [if_neg hp]
      unfold slotFilled at hfilled
      rw [if_neg hp] at hfilled
      obtain ⟨e, he⟩ := Option.isSome_iff_exists.mp hfilled
      obtain ⟨he1, he2, he3⟩ := hgood.2 e he
      have hjel : el = "json" := by
        rcases Bool.or_eq_true_iff.mp hrelel with h | h
        · exact absurd h (by simpa using hp)
        · simpa using h
      have hef : e = f := by
        refine List.inj_on_of_nodup_map hwf ?_ ?_ ?_
        · exact List.mem_filter.mpr ⟨he1, (isStillFile_iff e).mpr
            ⟨"json", he3, by decide⟩⟩
        · exact List.mem_filter.mpr ⟨hf, hrel⟩
        · simp only [Prod.mk.injEq]
          exact ⟨by rw [he2, hgstem], by rw [he3, hext, hjel]⟩
      rw [he, hef]
  refine List.mem_flatMap.mpr ⟨d, hd, ?_⟩
  rw [hdg]
  unfold groupFiles
  by_cases hp : el == "png"
  · rw [if_pos hp] at hslot
    rw [hslot]
    simp
  · rw [if_neg hp] at hslot
    rw [hslot]
    simp

theorem pruneRemovedGroups_def (now maxBytes maxAgeHours : Nat)
    (dir : List FileEntry) :
    pruneRemovedGroups now maxBytes maxAgeHours dir
      = (groupsOf dir).filter (isExpired now (maxAgeHours * 3600))
        ++ sizePassRemoved maxBytes
            (sumSizes ((groupsOf dir).filter
              (fun g => ! isExpired now (maxAgeHours * 3600) g)))
            (((groupsOf dir).filter
              (fun g => ! isExpired now (maxAgeHours * 3600) g)).insertionSort leMod) :=
  rfl

theorem pruneKeptGroups_def (now maxBytes maxAgeHours : Nat)
    (dir : List FileEntry) :
    pruneKeptGroups now maxBytes maxAgeHours dir
      = sizePassKept maxBytes
          (sumSizes ((groupsOf dir).filter
            (fun g => ! isExpired now (maxAgeHours * 3600) g)))
          (((groupsOf dir).filter
            (fun g => ! isExpired now (maxAgeHours * 3600) g)).insertionSort leMod) :=
  rfl

/-- Group-level effect of one pruning pass on a well-formed directory: the
groups of the surviving listing are exactly the groups of the original
listing whose stem no removed group carries. -/
theorem groupsOf_prune (now maxBytes maxAgeHours : Nat)
    (dir : List FileEntry) (hwf : WellFormedDir dir) :
    groupsOf (prune_recordings now maxBytes maxAgeHours dir)
      = (groupsOf dir).filter
          (fun g => ! ((pruneRemovedGroups now maxBytes maxAgeHours dir).map
              Group.stem).contains g.stem) := by
  have step2 : (prune_recordings now maxBytes maxAgeHours dir).filter isStillFile
      = dir.filter (fun f => isStillFile f
          && ! ((pruneRemovedGroups now maxBytes maxAgeHours dir).map
              Group.stem).contains f.stem) := by
    rw [prune_recordings, List.filter_filter]
    refine List.filter_congr ?_
    intro f hf
    by_cases hrel : isStillFile f = true
    · simp only [hrel, Bool.true_and]
      have hiff : ((pruneRemovedFiles now maxBytes maxAgeHours dir).contains f) = true
          ↔ (((pruneRemovedGroups now maxBytes maxAgeHours dir).map
              Group.stem).contains f.stem) = true := by
        rw [List.elem_iff, List.elem_iff]
        exact ⟨fun h => (removedFiles_spec now maxBytes maxAgeHours dir f h).2.2,
          fun h => wf_removed_of_stem now maxBytes maxAgeHours dir hwf f hf hrel h⟩
      rw [Bool.coe_iff_coe.mp hiff]
    · have hrel' : isStillFile f = false := by simpa using hrel
      simp [hrel']
  calc groupsOf (prune_recordings now maxBytes maxAgeHours dir)
      = groupsOf ((prune_recordings now maxBytes maxAgeHours dir).filter isStillFile) :=
        (groupsOf_filter_still _).symm
    _ = groupsOf ((dir.filter (fun f =>
          ! ((pruneRemovedGroups now maxBytes maxAgeHours dir).map
              Group.stem).contains f.stem)).filter isStillFile) := by
        rw [step2, List.filter_filter]
    _ = groupsOf (dir.filter (fun f =>
          ! ((pruneRemovedGroups now maxBytes maxAgeHours dir).map
              Group.stem).contains f.stem)) := groupsOf_filter_still _
    _ = (groupsOf dir).filter
          (fun g => ! ((pruneRemovedGroups now maxBytes maxAgeHours dir).map
              Group.stem).contains g.stem) :=
        groupsOf_filter_stem
          (fun s => ! ((pruneRemovedGroups now maxBytes maxAgeHours dir).map
              Group.stem).contains s) dir

/-- Membership in the kept suffix, characterised from membership in the
full group list plus not being a removed stem.  Stated generically over a
group list with distinct stems. -/
theorem mem_kept_iff (maxBytes now maxAge : Nat) (G : List Group)
    (hnd : (G.map Group.stem).Nodup) (g : Group) :
    (g ∈ G ∧ g.stem ∉ ((G.filter (isExpired now maxAge)
        ++ sizePassRemoved maxBytes
            (sumSizes (G.filter (fun x => ! isExpired now maxAge x)))
            ((G.filter (fun x => ! isExpired now maxAge x)).insertionSort leMod)).map
          Group.stem))
      ↔ g ∈ sizePassKept maxBytes
          (sumSizes (G.filter (fun x => ! isExpired now maxAge x)))
          ((G.filter (fun x => ! isExpired now maxAge x)).insertionSort leMod) := by
  set ageKept := G.filter (fun x => ! isExpired now maxAge x) with hAK
  set ageRem := G.filter (isExpired now maxAge) with hAR
  set sorted := ageKept.insertionSort leMod with hSort
  set sRem := sizePassRemoved maxBytes (sumSizes ageKept) sorted with hsR
  set sKept := sizePassKept maxBytes (sumSizes ageKept) sorted with hsK
  have hGnd : G.Nodup := List.Nodup.of_map _ hnd
  have hperm : List.Perm sorted ageKept := List.perm_insertionSort leMod ageKept
  have happ : sRem ++ sKept = sorted := sizePass_append maxBytes sorted _
  have hndsorted : sorted.Nodup := hperm.nodup_iff.mpr (hGnd.filter _)
  have hdis : sRem.Disjoint sKept := by
    rw [← happ] at hndsorted
    exact (List.nodup_append.mp hndsorted).2.2
  constructor
  · rintro ⟨hgG, hgS⟩
    have hnotexp : isExpired now maxAge g = false := by
      rcases Bool.eq_false_or_eq_true (isExpired now maxAge g) with h | h
      · exact absurd (List.mem_map_of_mem Group.stem
          (List.mem_append_left _ (List.mem_filter.mpr ⟨hgG, h⟩))) hgS
      · exact h
    have hgAK : g ∈ ageKept := List.mem_filter.mpr ⟨hgG, by simp [hnotexp]⟩
    have hgsorted : g ∈ sorted := (List.mem_insertionSort leMod).mpr hgAK
    rw [← happ] at hgsorted
    rcases List.mem_append.mp hgsorted with h | h
    · exact absurd (List.mem_map_of_mem Group.stem (List.mem_append_right _ h)) hgS
    · exact h
  · intro hk
    have hgsorted : g ∈ sorted := by
      rw [← happ]
      exact List.mem_append_right _ hk
    have hgAK : g ∈ ageKept := (List.mem_insertionSort leMod).mp hgsorted
    have hgG : g ∈ G := List.mem_of_mem_filter hgAK
    refine ⟨hgG, ?_⟩
    intro hmem
    obtain ⟨d, hd, hds⟩ := List.mem_map.mp hmem
    have hdG : d ∈ G := by
      rcases List.mem_append.mp hd with h | h
      · exact List.mem_of_mem_filter h
      · exact List.mem_of_mem_filter
          ((List.mem_insertionSort leMod).mp (sizePassRemoved_subset _ _ _ d h))
    have hdg : d = g := List.inj_on_of_nodup_map hnd hdG hgG hds
    rcases List.mem_append.mp hd with h | h
    · have h1 : isExpired now maxAge g = true := by
        have := (List.mem_filter.mp h).2
        rw [hdg] at this
        exact this
      have h2 := (List.mem_filter.mp hgAK).2
      simp [h1] at h2
    · exact hdis (hdg ▸ h) hk

/-- The groups surviving a pruning pass are exactly `pruneKeptGroups`. -/
theorem mem_groupsOf_prune_iff (now maxBytes maxAgeHours : Nat)
    (dir : List FileEntry) (hwf : WellFormedDir dir) (g : Group) :
    g ∈ groupsOf (prune_recordings now maxBytes maxAgeHours dir)
      ↔ g ∈ pruneKeptGroups now maxBytes maxAgeHours dir := by
  rw [groupsOf_prune now maxBytes maxAgeHours dir hwf, List.mem_filter,
    pruneKeptGroups_def]
  have h := mem_kept_iff maxBytes now (maxAgeHours * 3600) (groupsOf dir)
    (nodup_stems_groupsOf dir) g
  rw [← pruneRemovedGroups_def] at h
  rw [← h]
  constructor
  · rintro ⟨h1, h2⟩
    exact ⟨h1, by simpa using h2⟩
  · rintro ⟨h1, h2⟩
    exact ⟨h1, by simpa using h2⟩

/-- Both retention invariants hold of the surviving groups: none is past
the retention window, and their total size is at or below the ceiling. -/
theorem prune_groups_facts (now maxBytes maxAgeHours : Nat)
    (dir : List FileEntry) (hwf : WellFormedDir dir) :
    (∀ g ∈ groupsOf (prune_recordings now maxBytes maxAgeHours dir),
        isExpired now (maxAgeHours * 3600) g = false)
      ∧ sumSizes (groupsOf (prune_recordings now maxBytes maxAgeHours dir))
          ≤ maxBytes := by
  have hkept1 : ∀ g ∈ pruneKeptGroups now maxBytes maxAgeHours dir,
      isExpired now (maxAgeHours * 3600) g = false := by
    intro g hg
    rw [pruneKeptGroups_def] at hg
    have hsorted : g ∈ ((groupsOf dir).filter
        (fun x => ! isExpired now (maxAgeHours * 3600) x)).insertionSort leMod := by
      rw [← sizePass_append maxBytes (((groupsOf dir).filter
        (fun x => ! isExpired now (maxAgeHours * 3600) x)).insertionSort leMod)
        (sumSizes ((groupsOf dir).filter
          (fun x => ! isExpired now (maxAgeHours * 3600) x)))]
      exact List.mem_append_right _ hg
    have := (List.mem_filter.mp ((List.mem_insertionSort leMod).mp hsorted)).2
    simpa using this
  have hnd1 : (groupsOf (prune_recordings now maxBytes maxAgeHours dir)).Nodup := by
    rw [groupsOf_prune now maxBytes maxAgeHours dir hwf]
    exact (List.Nodup.of_map _ (nodup_stems_groupsOf dir)).filter _
  have hnd2 : (pruneKeptGroups now maxBytes maxAgeHours dir).Nodup := by
    rw [pruneKeptGroups_def]
    have hsortnd : (((groupsOf dir).filter
        (fun x => ! isExpired now (maxAgeHours * 3600) x)).insertionSort leMod).Nodup :=
      (List.perm_insertionSort leMod _).nodup_iff.mpr
        ((List.Nodup.of_map _ (nodup_stems_groupsOf dir)).filter _)
    rw [← sizePass_append maxBytes (((groupsOf dir).filter
      (fun x => ! isExpired now (maxAgeHours * 3600) x)).insertionSort leMod)
      (sumSizes ((groupsOf dir).filter
        (fun x => ! isExpired now (maxAgeHours * 3600) x)))] at hsortnd
    exact List.Nodup.of_append_right hsortnd
  have hperm : List.Perm (groupsOf (prune_recordings now maxBytes maxAgeHours dir))
      (pruneKeptGroups now maxBytes maxAgeHours dir) :=
    (List.perm_ext_iff_of_nodup hnd1 hnd2).mpr
      (fun g => mem_groupsOf_prune_iff now maxBytes maxAgeHours dir hwf g)
  have hsum : sumSizes (groupsOf (prune_recordings now maxBytes maxAgeHours dir))
      = sumSizes (pruneKeptGroups now maxBytes maxAgeHours dir) :=
    (hperm.map Group.size).sum_eq
  have hle : sumSizes (pruneKeptGroups now maxBytes maxAgeHours dir) ≤ maxBytes := by
    rw [pruneKeptGroups_def]
    refine sumSizes_sizePassKept maxBytes _ _ ?_
    exact (((List.perm_insertionSort leMod _).map Group.size).sum_eq).symm
  exact ⟨fun g hg => hkept1 g
      ((mem_groupsOf_prune_iff now maxBytes maxAgeHours dir hwf g).mp hg),
    hsum ▸ hle⟩

/-! ## Claim C1 — retention invariants of the pruning pass -/

/-- C1: on every well-formed directory state, a pruning pass leaves only
artifact groups whose earliest-of-pair modification age `now - modified`
is within `maxAgeHours` of now, leaves the surviving groups' total byte
size at or below `maxBytes` (deleting whole groups can always achieve
this, since deleting every group reaches zero), and deletes groups
oldest-modified-first: every removed group is no newer than every
surviving group. -/
theorem prune_recordings_retention (now maxBytes maxAgeHours : Nat)
    (dir : List FileEntry) (hwf : WellFormedDir dir) :
    (∀ g ∈ groupsOf (prune_recordings now maxBytes maxAgeHours dir),
        now - g.modified ≤ maxAgeHours * 3600)
      ∧ sumSizes (groupsOf (prune_recordings now maxBytes maxAgeHours dir))
          ≤ maxBytes
      ∧ ∀ d ∈ pruneRemovedGroups now maxBytes maxAgeHours dir,
          ∀ k ∈ groupsOf (prune_recordings now maxBytes maxAgeHours dir),
            d.modified ≤ k.modified := by
  obtain ⟨h1, h2⟩ := prune_groups_facts now maxBytes maxAgeHours dir hwf
  refine ⟨?_, h2, ?_⟩
  · intro g hg
    have := h1 g hg
    unfold isExpired at this
    simp only [decide_eq_false_iff_not, Nat.not_lt] at this
    exact this
  · intro d hd k hk
    have hkk := (mem_groupsOf_prune_iff now maxBytes maxAgeHours dir hwf k).mp hk
    rw [pruneRemovedGroups_def] at hd
    rw [pruneKeptGroups_def] at hkk
    rcases List.mem_append.mp hd with h | h
    · have hde := (List.mem_filter.mp h).2
      have hknot := h1 k hk
      unfold isExpired at hde hknot
      simp only [decide_eq_true_eq] at hde
      simp only [decide_eq_false_iff_not, Nat.not_lt] at hknot
      omega
    · have hsorted : List.Sorted leMod (((groupsOf dir).filter
          (fun x => ! isExpired now (maxAgeHours * 3600) x)).insertionSort leMod) :=
        List.sorted_insertionSort leMod _
      rw [← sizePass_append maxBytes (((groupsOf dir).filter
        (fun x => ! isExpired now (maxAgeHours * 3600) x)).insertionSort leMod)
        (sumSizes ((groupsOf dir).filter
          (fun x => ! isExpired now (maxAgeHours * 3600) x)))] at hsorted
      exact (List.pairwise_append.mp hsorted).2.2 d h k hkk

/-- Witness for C1: a directory holding an over-age group, a fresh group
and a video file; after the pass the surviving groups are within budget. -/
theorem prune_recordings_retention_witness :
    sumSizes (groupsOf (prune_recordings 200000 1000 48
        [⟨"a", some "png", 600, 10⟩, ⟨"a", some "json", 10, 12⟩,
         ⟨"b", some "png", 600, 100000⟩, ⟨"v", some "mp4", 999, 0⟩])) ≤ 1000 :=
  (prune_recordings_retention 200000 1000 48
    [⟨"a", some "png", 600, 10⟩, ⟨"a", some "json", 10, 12⟩,
     ⟨"b", some "png", 600, 100000⟩, ⟨"v", some "mp4", 999, 0⟩]
    (by decide)).2.1

/-! ## Claim C6 — idempotence of the pruning pass -/

/-- C6: pruning is idempotent — running a second pass over the listing a
first pass produced, with the same parameters and the same clock, deletes
no file at all and leaves the listing unchanged. -/
theorem prune_recordings_idempotent (now maxBytes maxAgeHours : Nat)
    (dir : List FileEntry) (hwf : WellFormedDir dir) :
    pruneRemovedFiles now maxBytes maxAgeHours
        (prune_recordings now maxBytes maxAgeHours dir) = []
      ∧ prune_recordings now maxBytes maxAgeHours
          (prune_recordings now maxBytes maxAgeHours dir)
        = prune_recordings now maxBytes maxAgeHours dir := by
  obtain ⟨h1, h2⟩ := prune_groups_facts now maxBytes maxAgeHours dir hwf
  set L := prune_recordings now maxBytes maxAgeHours dir with hL
  have hf1 : (groupsOf L).filter (isExpired now (maxAgeHours * 3600)) = [] := by
    rw [List.filter_eq_nil_iff]
    intro g hg
    simp [h1 g hg]
  have hf2 : (groupsOf L).filter
      (fun g => ! isExpired now (maxAgeHours * 3600) g) = groupsOf L :=
    List.filter_eq_self.mpr (fun g hg => by simp [h1 g hg])
  have hrem : pruneRemovedGroups now maxBytes maxAgeHours L = [] := by
    rw [pruneRemovedGroups_def, hf1, hf2, List.nil_append]
    exact sizePassRemoved_eq_nil maxBytes _ _ h2
  have hfiles : pruneRemovedFiles now maxBytes maxAgeHours L = [] := by
    rw [pruneRemovedFiles, hrem]
    rfl
  refine ⟨hfiles, ?_⟩
  simp only [prune_recordings, hfiles]
  simp

/-- Witness for C6: on a concrete directory needing both an age deletion
and a size deletion, the second pass deletes nothing. -/
theorem prune_recordings_idempotent_witness :
    pruneRemovedFiles 200000 500 48
        (prune_recordings 200000 500 48
          [⟨"a", some "png", 600, 10⟩, ⟨"a", some "json", 10, 12⟩,
           ⟨"b", some "png", 400, 100000⟩, ⟨"c", some "png", 400, 150000⟩]) = [] :=
  (prune_recordings_idempotent 200000 500 48
    [⟨"a", some "png", 600, 10⟩, ⟨"a", some "json", 10, 12⟩,
     ⟨"b", some "png", 400, 100000⟩, ⟨"c", some "png", 400, 150000⟩]
    (by decide)).1

/-! ## Claim C10 — the pruner touches only still artifacts -/

/-- C10: a pruning pass deletes only files whose lowercased extension is
`png` or `json`; every other file — video segments in particular — is left
in place whatever the directory state and the limits. -/
theorem prune_preserves_non_still (now maxBytes maxAgeHours : Nat)
    (dir : List FileEntry) (f : FileEntry) (hf : f ∈ dir)
    (hns : isStillFile f = false) :
    f ∈ prune_recordings now maxBytes maxAgeHours dir := by
  simp only [prune_recordings]
  rw [List.mem_filter]
  refine ⟨hf, ?_⟩
  have hnot : f ∉ pruneRemovedFiles now maxBytes maxAgeHours dir := by
    intro hmem
    have hstill := (removedFiles_spec now maxBytes maxAgeHours dir f hmem).1
    rw [hstill] at hns
    cases hns
  simpa using hnot

/-- Witness for C10: the video segment survives a pass that deletes every
still group. -/
theorem prune_preserves_non_still_witness :
    (⟨"video_001", some "mp4", 999, 0⟩ : FileEntry)
      ∈ prune_recordings 999999999 0 0
          [⟨"a", some "png", 600, 10⟩, ⟨"video_001", some "mp4", 999, 0⟩] :=
  prune_preserves_non_still 999999999 0 0
    [⟨"a", some "png", 600, 10⟩, ⟨"video_001", some "mp4", 999, 0⟩]
    ⟨"video_001", some "mp4", 999, 0⟩ (by decide) (by decide)

end Golpac
